import Mathlib

/-!
Verification development for the exam-paper ETL pipeline
(`extractor.py`, `ocr_engine.py`, `parser.py`, `config.py`).

The Python sources are shallowly embedded as executable Lean functions:
strings are `String`/`List Char`, machine floats are modelled as exact
rationals (`ℚ`), the external OCR engine is an oracle
`recog : π → Except Unit String` (where `.error` models a raised
exception and `.ok ""` models an empty recognition result), and the
on-disk pickle cache is an association list keyed by the page
fingerprint.  Python truthiness tests on strings/options are modelled
explicitly (`None` or `""` both count as falsy).
-/

namespace ExamETL

/-! ## Basic string helpers (Python `str.strip`, `str.split`, `re` whitespace)

`isPyWs` covers the whitespace characters relevant to this code base
(the ASCII class of Python's `\s` plus the common Unicode spaces that
`str.strip` also removes).  All concrete inputs in this file only use
ASCII whitespace. -/

def isPyWs (c : Char) : Bool :=
  c = ' ' || c = '\t' || c = '\n' || c = '\r' ||
  c = '\x0b' || c = '\x0c' || c = ' ' || c = '　'

/-- Python `str.strip()`: drop leading and trailing whitespace. -/
def pyStrip (s : List Char) : List Char :=
  ((s.dropWhile isPyWs).reverse.dropWhile isPyWs).reverse

/-- Python `str.split(sep)` for a one-character separator: always returns
at least one (possibly empty) piece. -/
def splitOnChar (sep : Char) : List Char → List (List Char)
  | [] => [[]]
  | c :: rest =>
    match splitOnChar sep rest with
    | [] => [[c]]
    | l :: ls => if c = sep then [] :: l :: ls else (c :: l) :: ls

/-- Containment of `pat` as a contiguous substring of `s`
(Python `pat in s`). -/
def listContainsSub (pat s : List Char) : Bool :=
  s.tails.any (fun t => pat.isPrefixOf t)

/-! ## Section segmentation (`parser.py`, `ExamParser.identify_sections`)

The default patterns from `config.py` are embedded directly:
`PAPER_PATTERN = 卷([一二三四五六七])` and
`TYPE_PATTERN = ^([一二三四五六七八九十])、\s*([^、\n]{2,15})(?:题|$)`. -/

def paperNumerals : List Char := ['一', '二', '三', '四', '五', '六', '七']

def typeNumerals : List Char :=
  ['一', '二', '三', '四', '五', '六', '七', '八', '九', '十']

/-- Model of `re.search` of `卷([一二三四五六七])` over a line: scan left to right
for `卷` immediately followed by a paper numeral; return capture group 1. -/
def paperSearch : List Char → Option Char
  | [] => none
  | c :: rest =>
    if c = '卷' then
      match rest with
      | d :: _ => if paperNumerals.contains d then some d else paperSearch rest
      | [] => none
    else paperSearch rest

/-- Characters admitted by the class `[^、\n]` in `TYPE_PATTERN`. -/
def typeClassOk (c : Char) : Bool := !(c = '、' || c = '\n')

/-- Acceptance of the regex tail `\s*([^、\n]{2,15})(?:题|$)` on `s`.
Because only capture group 1 (fixed before this tail) is consumed by the
caller, backtracking order is irrelevant and acceptance is an existence
check: some split into a whitespace run, a class run of length 2 to 15,
and either `题` or end of string. -/
def typeTailMatches (s : List Char) : Bool :=
  (List.range ((s.takeWhile isPyWs).length + 1)).any (fun k =>
    let rest := s.drop k
    (List.range 14).any (fun j =>
      let len := j + 2
      decide (len ≤ rest.length) && (rest.take len).all typeClassOk &&
        (match rest.drop len with
         | [] => true
         | c :: _ => c = '题')))

/-- Model of `re.match` of `TYPE_PATTERN` on a line, returning capture group 1
(the ordinal numeral), which is the only group the parser stores. -/
def typeMatch (s : List Char) : Option Char :=
  match s with
  | c :: d :: rest =>
    if typeNumerals.contains c ∧ d = '、' ∧ typeTailMatches rest then some c else none
  | _ => none

/-- One input page as seen by `identify_sections`: the page dict's
`text` and `source` entries (`HybridExtractor` always sets `source`;
the dict default is `'pdfplumber'`). -/
structure RawPage where
  text : String
  source : String
deriving DecidableEq

/-- An output section of `identify_sections`. -/
structure ExamSection where
  paper : String
  type : String
  content : String
  source : String
deriving DecidableEq

/-- Python truthiness of an optional string: `None` and `""` are falsy. -/
def optStrTruthy : Option String → Bool
  | none => false
  | some s => !(s == "")

/-- Python `current_type or 'Unknown'`. -/
def typeOrUnknown : Option String → String
  | none => "Unknown"
  | some t => if t = "" then "Unknown" else t

/-- Mutable state of the `identify_sections` line loop. -/
structure SegState where
  curPaper : Option String
  curType : Option String
  curContent : List String
  curSource : String
  sections : List ExamSection

/-- The flush step guarded by `if current_paper and current_content`. -/
def flushSections (st : SegState) : List ExamSection :=
  if optStrTruthy st.curPaper ∧ st.curContent ≠ [] then
    st.sections ++ [⟨st.curPaper.getD "", typeOrUnknown st.curType,
                     String.intercalate "\n" st.curContent, st.curSource⟩]
  else st.sections

/-- Processing of one raw line of one page (`identify_sections` body). -/
def processLine (pageSource : String) (st : SegState) (rawLine : List Char) : SegState :=
  let line := pyStrip rawLine
  if line.isEmpty then st
  else
    let paperHit : Option Char :=
      match paperSearch line with
      | some d => if line.head? = some '卷' then some d else none
      | none => none
    match paperHit with
    | some d =>
      { curPaper := some (String.mk ['卷', d]), curType := none, curContent := [],
        curSource := pageSource, sections := flushSections st }
    | none =>
      match typeMatch line with
      | some g1 =>
        { curPaper := st.curPaper, curType := some (String.mk [g1]), curContent := [],
          curSource := pageSource, sections := flushSections st }
      | none =>
        if optStrTruthy st.curPaper then
          { st with curContent := st.curContent ++ [String.mk line] }
        else st

/-- Model of `ExamParser.identify_sections` (parser.py lines 40-126) under the
default paper and type patterns. -/
def identify_sections (pages : List RawPage) : List ExamSection :=
  let st0 : SegState := ⟨none, none, [], "pdfplumber", []⟩
  let stF := pages.foldl
    (fun st page => (splitOnChar '\n' page.text.data).foldl (processLine page.source) st)
    st0
  flushSections stF

/-- The six-line input of the segmentation-correctness scenario, as one
page of text (lines joined by newlines, native provenance). -/
def c1Input : List RawPage :=
  [⟨"卷一\n一、选择题\n1. 题目A内容\n卷二\n二、填空题\n2. 题目B内容", "pdfplumber"⟩]

/-! ## Question extraction (`parser.py`, `ExamParser.extract_questions_from_section`)

A question-extraction regex is embedded as the function computed by
`re.finditer`: the ordered list of `(group 1, group 2)` capture pairs it
yields on a section's content.  This keeps the control flow of
`extract_questions_from_section` (pattern order, first-match-wins,
filtering, truncation) exact while leaving the individual regexes — which
are configuration data — as parameters. -/

abbrev QPattern := String → List (String × String)

/-- Configuration slice consumed by `extract_questions_from_section`. -/
structure ParserConfig where
  /-- `ETLConfig.QUESTION_PATTERNS` (config.py lines 89-94), as match
  functions. -/
  questionPatterns : List QPattern
  /-- Modelled from the spec: `parser.py` reads
  `config.OCR_QUESTION_PATTERNS`, but `config.py` defines no such
  accessor; spec section 6 says configuration supplies "an ordered list
  of OCR-tolerant content-extraction patterns", so the list is carried
  here as opaque data. -/
  ocrQuestionPatterns : List QPattern
  minContentLength : Nat
  maxContentLength : Nat

/-- A `QuestionRecord` as appended by `extract_questions_from_section`. -/
structure Question where
  Paper_ID : String
  Question_Type : String
  Question_Number : String
  Content : String
deriving DecidableEq

/-- The OCR correction table of `ExamParser._clean_ocr_content`, in the
source's (insertion) order. -/
def ocrCorrections : List (String × String) :=
  [("O ", "0 "), (" l ", " 1 "),
   ("⑴", "(1)"), ("⑵", "(2)"), ("⑶", "(3)"), ("⑷", "(4)"), ("⑸", "(5)"),
   ("⑹", "(6)"), ("⑺", "(7)"), ("⑻", "(8)"), ("⑼", "(9)"), ("⑽", "(10)"),
   ("①", "(1)"), ("②", "(2)"), ("③", "(3)"), ("④", "(4)"), ("⑤", "(5)")]

/-- Model of `ExamParser._clean_ocr_content`: apply each replacement in table order. -/
def clean_ocr_content (content : String) : String :=
  if content = "" then content
  else ocrCorrections.foldl (fun s wc => s.replace wc.1 wc.2) content

/-- Worker of `collapseWs`; the flag records whether the previous
character was inside a whitespace run already emitted as one space. -/
def collapseWsAux : Bool → List Char → List Char
  | _, [] => []
  | inWs, c :: rest =>
    if isPyWs c then
      if inWs then collapseWsAux true rest else ' ' :: collapseWsAux true rest
    else c :: collapseWsAux false rest

/-- Model of `re.sub(r'\s+', ' ', s)`: collapse each whitespace run to one space. -/
def collapseWs (s : List Char) : List Char := collapseWsAux false s

/-- The content cleanup applied to one match: `group(2).strip()`, the OCR
correction table when the section is OCR-derived, whitespace collapse,
and a final strip (parser.py lines 155-163). -/
def processContent (isOcr : Bool) (g2 : String) : List Char :=
  let c0 := String.mk (pyStrip g2.data)
  let c1 := if isOcr then clean_ocr_content c0 else c0
  pyStrip (collapseWs c1.data)

/-- Characters of the junk class `[\dA-D\s()]` (parser.py line 170). -/
def junkChar (c : Char) : Bool :=
  c.isDigit || c = 'A' || c = 'B' || c = 'C' || c = 'D' || isPyWs c ||
  c = '(' || c = ')'

/-- The junk test `re.match(r'^[\dA-D\s()]+$', s)` succeeds iff `s` is non-empty and
made only of junk characters (after whitespace collapse `s` holds no
newline, so the `$`-before-final-newline subtlety is vacuous). -/
def junkOnly (s : List Char) : Bool := !s.isEmpty && s.all junkChar

/-- Processing of one regex match: clean, filter by minimum length,
filter junk, else append truncated to the maximum length
(parser.py lines 153-178). -/
def acceptMatch (minLen maxLen : Nat) (secPaper secType : String) (isOcr : Bool)
    (acc : List Question) (m : String × String) : List Question :=
  let c := processContent isOcr m.2
  if c.length < minLen then acc
  else if junkOnly c then acc
  else acc ++ [⟨secPaper, secType, m.1, String.mk (c.take maxLen)⟩]

/-- The pattern loop of `extract_questions_from_section`: run each
pattern's matches through `acceptMatch`, breaking as soon as the
accumulated question list is non-empty (parser.py lines 150-182). -/
def runPatterns (minLen maxLen : Nat) (secPaper secType content : String)
    (isOcr : Bool) : List QPattern → List Question → List Question
  | [], acc => acc
  | p :: rest, acc =>
    let acc' := (p content).foldl (acceptMatch minLen maxLen secPaper secType isOcr) acc
    if acc'.isEmpty then runPatterns minLen maxLen secPaper secType content isOcr rest acc'
    else acc'

/-- Model of `ExamParser.extract_questions_from_section` (parser.py lines 128-183). -/
def extract_questions_from_section (cfg : ParserConfig) (sec : ExamSection) :
    List Question :=
  let isOcr := sec.source == "ocr"
  let pats := if isOcr then cfg.ocrQuestionPatterns ++ cfg.questionPatterns
              else cfg.questionPatterns
  runPatterns cfg.minContentLength cfg.maxContentLength sec.paper sec.type
    sec.content isOcr pats []

/-- The accepted records a single pattern would produce for a section,
starting from an empty accumulator. -/
def acceptedOf (cfg : ParserConfig) (sec : ExamSection) (isOcr : Bool)
    (p : QPattern) : List Question :=
  (p sec.content).foldl
    (acceptMatch cfg.minContentLength cfg.maxContentLength sec.paper sec.type isOcr) []

/-! ## OCR engine (`ocr_engine.py`)

The external recognition engine (page rendering, `PaddleOCR.ocr`, and
the text-line assembly of lines 157-176) is an oracle
`recog : π → Except Unit String` over an abstract page type `π`:
`.error ()` models an exception raised anywhere inside the `try` block,
`.ok t` the assembled text (`.ok ""` covers the `return ""` branch when
the engine yields no result).  `fp : π → Nat` is the `OCRCache`
fingerprint (MD5 of the rendered image); the pickle directory is an
association list, where an absent key models both a missing cache file
and a failed load (`OCRCache.get` returns `None` for either). -/

abbrev Cache := List (Nat × String)

def cacheLookup (c : Cache) (k : Nat) : Option String :=
  (c.find? (fun e => e.1 == k)).map (fun e => e.2)

/-- Model of `OCRCache.set`: a fresh entry shadows any earlier one for the key. -/
def cacheInsert (c : Cache) (k : Nat) (v : String) : Cache := (k, v) :: c

/-- Result of one `extract_text_from_page` call: the returned text, the
cache afterwards, and whether the underlying recognition engine ran. -/
structure OCRPageResult where
  text : String
  cache : Cache
  invoked : Bool
deriving DecidableEq

/-- The `try` block of `extract_text_from_page` (lines 156-188): run
recognition; on exception return `""`; cache the text only when caching
is on and the text is non-empty. -/
def runRecognition {π : Type} (recog : π → Except Unit String) (fp : π → Nat)
    (c : Cache) (p : π) (useCache : Bool) : OCRPageResult :=
  match recog p with
  | .error _ => ⟨"", c, true⟩
  | .ok t => if useCache ∧ t ≠ "" then ⟨t, cacheInsert c (fp p) t, true⟩ else ⟨t, c, true⟩

/-- Model of `OCREngine.extract_text_from_page` (lines 138-188).  The cache check
uses Python truthiness: a `None` (absent / failed load) or `""` cached
value falls through to recognition. -/
def extract_text_from_page {π : Type} (recog : π → Except Unit String) (fp : π → Nat)
    (c : Cache) (p : π) (useCache : Bool) : OCRPageResult :=
  if useCache then
    match cacheLookup c (fp p) with
    | some t => if t ≠ "" then ⟨t, c, false⟩ else runRecognition recog fp c p useCache
    | none => runRecognition recog fp c p useCache
  else runRecognition recog fp c p useCache

/-- The truthy cache probe of the batch loop (lines 212-216): `some t`
exactly when `OCRCache.get` returned a non-empty string. -/
def cacheHitText (c : Cache) (k : Nat) : Option String :=
  match cacheLookup c k with
  | some t => if t = "" then none else some t
  | none => none

/-- The cache scan of `extract_text_from_pages_batch` (lines 210-216):
`(cached_results, remaining_indices)`, both in increasing index order,
starting at index `i`. -/
def splitHits {π : Type} (c : Cache) (fp : π → Nat) :
    List π → Nat → List (Nat × String) × List Nat
  | [], _ => ([], [])
  | p :: rest, i =>
    match cacheHitText c (fp p) with
    | some t => ((i, t) :: (splitHits c fp rest (i + 1)).1, (splitHits c fp rest (i + 1)).2)
    | none => ((splitHits c fp rest (i + 1)).1, i :: (splitHits c fp rest (i + 1)).2)

/-- The `as_completed` loop (lines 238-260): workers complete in the
order given by `order`; each completed worker's text is written into its
own index slot of the result array and, when non-empty and caching is
on, written back to the cache.  A worker runs
`extract_text_from_page page False`, which never raises (every failure
is already resolved to `""` inside it), so the `except` arm of the loop
body is unreachable. -/
def runWorkers {π : Type} (recog : π → Except Unit String) (fp : π → Nat)
    (pages : List π) (useCache : Bool) :
    List Nat → List (Option String) → Cache → List (Option String) × Cache
  | [], results, c => (results, c)
  | idx :: rest, results, c =>
    match pages.get? idx with
    | none => runWorkers recog fp pages useCache rest results c
    | some p =>
      let r := extract_text_from_page recog fp c p false
      let results' := results.set idx (some r.text)
      let c' := if r.text ≠ "" ∧ useCache then cacheInsert c (fp p) r.text else c
      runWorkers recog fp pages useCache rest results' c'

/-- Model of `OCREngine.extract_text_from_pages_batch` (lines 190-265),
parameterised by the completion order of the concurrent workers.  The
result array is modelled with `Option String` slots (`none` is the
initial `None` placeholder); the all-hit early return wraps its strings
in `some` accordingly.  Note the faithful quirk of lines 206-216: when
`use_cache` is false the scan loop is skipped, `remaining_indices` stays
empty and the function takes the early-return path. -/
def extract_text_from_pages_batch {π : Type} (recog : π → Except Unit String)
    (fp : π → Nat) (c : Cache) (pages : List π) (useCache : Bool)
    (order : List Nat) : List (Option String) × Cache :=
  if pages.isEmpty then ([], c)
  else
    let hm := if useCache then splitHits c fp pages 0 else ([], [])
    if hm.2.isEmpty then (hm.1.map (fun h => some h.2), c)
    else
      runWorkers recog fp pages useCache order
        (hm.1.foldl (fun rs h => rs.set h.1 (some h.2))
          (List.replicate pages.length none)) c

/-- The text a dispatched worker produces for a page (independent of the
cache, since workers call `extract_text_from_page` with caching off). -/
def workerText {π : Type} (recog : π → Except Unit String) (p : π) : String :=
  match recog p with
  | .error _ => ""
  | .ok t => t

/-- The per-page result the batch is expected to return under caching:
the non-empty cached value if the initial cache has one for the page's
fingerprint, otherwise the worker's recognition result. -/
def expectedText {π : Type} (recog : π → Except Unit String) (fp : π → Nat)
    (c : Cache) (p : π) : String :=
  match cacheHitText c (fp p) with
  | some t => t
  | none => workerText recog p

/-! ## Quality assessment and hybrid extraction (`ocr_engine.py` lines
267-303, `extractor.py` lines 64-161)

Python float arithmetic is modelled as exact rational arithmetic; the
constants 0.3, 0.4 and the threshold 0.3 are the rationals 3/10, 2/5,
3/10. -/

/-- The structural keyword list of `assess_text_quality` (line 288). -/
def structureKeywords : List String :=
  ["卷", "题", "选择", "填空", "应用", "设计", "简答", "计算"]

/-- Count of CJK characters in the range `一`-`鿿` (line 284). -/
def chineseCount (t : List Char) : Nat :=
  (t.filter (fun c => 0x4e00 ≤ c.toNat ∧ c.toNat ≤ 0x9fff)).length

/-- Python `any(keyword in text for keyword in structure_keywords)` (line 289). -/
def hasStructureKeyword (t : List Char) : Bool :=
  structureKeywords.any (fun k => listContainsSub k.data t)

/-- The fields of `assess_text_quality`'s result that the extractor
reads (`char_count`, `score`), plus the intermediate signals. -/
structure QualityMetrics where
  char_count : Nat
  chinese_ratio : ℚ
  has_structure : Bool
  score : ℚ
deriving DecidableEq

/-- Model of `OCREngine.assess_text_quality` (lines 267-303).  The empty string
takes the early-return branch with zero metrics. -/
def assess_text_quality (t : List Char) : QualityMetrics :=
  if t.isEmpty then ⟨0, 0, false, 0⟩
  else
    let cc := chineseCount t
    let ratio : ℚ := (cc : ℚ) / (t.length : ℚ)
    let hs := hasStructureKeyword t
    ⟨t.length, ratio, hs,
     min ((cc : ℚ) / 500) (2 / 5) + ratio * (3 / 10) +
       (if hs then (3 / 10 : ℚ) else 0)⟩

/-- The flagging decision of `HybridExtractor.extract` (lines 101-104):
`score < quality_threshold (0.3) or char_count < 50`. -/
def needs_ocr (t : List Char) : Bool :=
  let q := assess_text_quality t
  decide (q.score < (3 / 10 : ℚ)) || decide (q.char_count < 50)

/-- One entry of the page list built by `HybridExtractor.extract`. -/
structure PageEntry where
  page_num : Nat
  text : String
  source : String
deriving DecidableEq

/-- Pass 1 of `HybridExtractor.extract` (lines 97-120), starting at
source-page index `i`: the page list (with `pending_ocr` placeholders)
and `ocr_pages_indices`.  `natives` holds each page's
`page.extract_text()` result (`none` models Python `None`); the entry
stores `text or ''`. -/
def hybridPass1 : List (Option String) → Nat → List PageEntry × List Nat
  | [], _ => ([], [])
  | t? :: rest, i =>
    let t := t?.getD ""
    let (es, fs) := hybridPass1 rest (i + 1)
    if needs_ocr t.data then (⟨i + 1, t, "pending_ocr"⟩ :: es, i :: fs)
    else (⟨i + 1, t, "pdfplumber"⟩ :: es, fs)

/-- The per-page OCR-result merge of lines 137-142. -/
def ocrUpdate (r : String) (e : PageEntry) : PageEntry :=
  if r ≠ "" then { e with text := r, source := "ocr" }
  else { e with source := "pdfplumber_fallback" }

/-- In-place update of one list position (`pages[page_idx] = ...`);
out-of-range indices leave the list unchanged. -/
def listModify {α : Type} (f : α → α) : Nat → List α → List α
  | _, [] => []
  | 0, a :: as => f a :: as
  | n + 1, a :: as => a :: listModify f n as

/-- Model of `HybridExtractor.extract` (lines 74-161): pass 1 flags pages, pass 2
merges the batch OCR texts (given here as `ocrTexts`, the list that
`extract_text_from_pages_batch` returned for the flagged pages) back
into the page list via `zip(ocr_pages_indices, ocr_texts)`. -/
def hybrid_extract (natives : List (Option String)) (ocrTexts : List String) :
    List PageEntry :=
  ((hybridPass1 natives 0).2.zip ocrTexts).foldl
    (fun ps u => listModify (ocrUpdate u.2) u.1 ps) (hybridPass1 natives 0).1

/-- Per-page restatement of the hybrid-extraction contract, following
the spec's wording: one entry per source page in order; an unflagged
page keeps its native text with provenance `pdfplumber` (the code's tag
for the spec's `native`); a flagged page takes the recognized text with
provenance `ocr` (`recognized`) when it is non-empty, and otherwise
keeps its native text with provenance `pdfplumber_fallback`
(`recognized_fallback`).  To be compared with `hybrid_extract`. -/
def hybridExtractSpec : List (Option String) → List String → Nat → List PageEntry
  | [], _, _ => []
  | t? :: rest, ocrs, i =>
    let t := t?.getD ""
    if needs_ocr t.data then
      match ocrs with
      | [] => ⟨i + 1, t, "pending_ocr"⟩ :: hybridExtractSpec rest [] (i + 1)
      | r :: ocrs' =>
        (if r ≠ "" then (⟨i + 1, r, "ocr"⟩ : PageEntry)
         else ⟨i + 1, t, "pdfplumber_fallback"⟩) :: hybridExtractSpec rest ocrs' (i + 1)
    else ⟨i + 1, t, "pdfplumber"⟩ :: hybridExtractSpec rest ocrs (i + 1)

/-! ## Concrete fixtures used by witnesses and counterexamples -/

/-- A sample match function standing for one configured question regex:
it yields a single `(number, content)` capture pair. -/
def patW : QPattern := fun _ => [("1", "这道题目的内容足够长可以通过")]

/-- A sample parser configuration with the default length bounds
(`MIN_CONTENT_LENGTH = 10`, `MAX_CONTENT_LENGTH = 800`). -/
def cfgW : ParserConfig := ⟨[patW], [], 10, 800⟩

/-- A native-provenance section fixture. -/
def secNatW : ExamSection := ⟨"卷一", "一", "1. 内容", "pdfplumber"⟩

/-- An OCR-provenance section fixture. -/
def secOcrW : ExamSection := ⟨"卷一", "一", "1. 内容", "ocr"⟩

/-- A recognition oracle over pages identified by naturals that raises
on page `1` and succeeds on every other page. -/
def c6recog : Nat → Except Unit String :=
  fun n => if n = 1 then Except.error () else Except.ok "好"

/-! ## Theorems

Helper lemmas come first; each claim's theorem carries the claim id in
its doc comment. -/

theorem runPatterns_eq_find (minLen maxLen : Nat) (paper qtype content : String)
    (isOcr : Bool) :
    ∀ pats : List QPattern,
      runPatterns minLen maxLen paper qtype content isOcr pats [] =
        match pats.find? (fun p =>
            !((p content).foldl (acceptMatch minLen maxLen paper qtype isOcr) []).isEmpty) with
        | some p => (p content).foldl (acceptMatch minLen maxLen paper qtype isOcr) []
        | none => []
  | [] => rfl
  | p :: rest => by
    have hrec := runPatterns_eq_find minLen maxLen paper qtype content isOcr rest
    simp only [runPatterns, List.find?]
    by_cases h : ((p content).foldl (acceptMatch minLen maxLen paper qtype isOcr) []).isEmpty
    · have h0 : (p content).foldl (acceptMatch minLen maxLen paper qtype isOcr) [] = [] :=
        List.isEmpty_iff.mp h
      simp only [h, Bool.not_true, if_pos rfl, h0]
      simpa [h0] using hrec
    · simp only [eq_false_of_ne_true h, Bool.not_false]
      simp [h]

/-- C8: For each section, patterns are applied in list order and
extraction stops at the first pattern yielding at least one accepted
record; the emitted records are exactly that winning pattern's accepted
records (from an empty accumulator), and `[]` when no pattern wins. -/
theorem c8_first_match_wins (cfg : ParserConfig) (sec : ExamSection) :
    extract_questions_from_section cfg sec =
      match (if sec.source == "ocr" then cfg.ocrQuestionPatterns ++ cfg.questionPatterns
             else cfg.questionPatterns).find?
              (fun p => !(acceptedOf cfg sec (sec.source == "ocr") p).isEmpty) with
      | some p => acceptedOf cfg sec (sec.source == "ocr") p
      | none => [] :=
  runPatterns_eq_find cfg.minContentLength cfg.maxContentLength sec.paper sec.type
    sec.content (sec.source == "ocr") _

/-- C1: Counterexample to the claim as stated.  On the six-line stream,
`identify_sections` does not produce sections typed `选择` and `填空`:
the parser stores `type_match.group(1)` (parser.py line 98), which under
the default `TYPE_PATTERN` captures the ordinal numeral, not the
question-type name. -/
theorem c1_sections_counterexample :
    (identify_sections c1Input).map ExamSection.type ≠ ["选择", "填空"] := by decide

/-- C1 (amended): For the line stream `卷一 / 一、选择题 / 1. 题目A内容 /
卷二 / 二、填空题 / 2. 题目B内容` under the default patterns,
`identify_sections` returns exactly two sections in order, the first
with paper `卷一`, question-type `一` (the captured ordinal numeral) and
content `1. 题目A内容`, the second with paper `卷二`, question-type `二`
and content `2. 题目B内容`. -/
theorem c1_sections_amended :
    identify_sections c1Input =
      [⟨"卷一", "一", "1. 题目A内容", "pdfplumber"⟩,
       ⟨"卷二", "二", "2. 题目B内容", "pdfplumber"⟩] := by decide

/-- C2: Pattern-list selection by provenance.  A section whose `source`
is `"ocr"` is processed with the OCR-tolerant list concatenated before
the standard list; any other section is processed with exactly the
standard list, and the result is independent of whatever the
OCR-tolerant list holds (so no OCR-tolerant pattern is ever tried). -/
theorem c2_pattern_selection (cfg : ParserConfig) (sec : ExamSection) :
    (sec.source = "ocr" →
      extract_questions_from_section cfg sec =
        runPatterns cfg.minContentLength cfg.maxContentLength sec.paper sec.type
          sec.content true (cfg.ocrQuestionPatterns ++ cfg.questionPatterns) []) ∧
    (sec.source ≠ "ocr" →
      ∀ alt : List QPattern,
        extract_questions_from_section { cfg with ocrQuestionPatterns := alt } sec =
          runPatterns cfg.minContentLength cfg.maxContentLength sec.paper sec.type
            sec.content false cfg.questionPatterns []) := by
  constructor
  · intro h
    simp only [extract_questions_from_section, h]
    rfl
  · intro h alt
    have hb : (sec.source == "ocr") = false := by
      simpa using h
    simp only [extract_questions_from_section, hb]
    rfl

/-- C2 witness: the OCR branch instantiated at concrete inputs. -/
theorem c2_pattern_selection_witness :
    extract_questions_from_section ⟨[patW], [], 10, 800⟩ secOcrW =
      runPatterns 10 800 secOcrW.paper secOcrW.type secOcrW.content true
        ([] ++ [patW]) [] :=
  (c2_pattern_selection ⟨[patW], [], 10, 800⟩ secOcrW).1 rfl

theorem acceptMatch_skip_short (minLen maxLen : Nat) (paper qtype : String)
    (isOcr : Bool) (acc : List Question) (m : String × String)
    (h : (processContent isOcr m.2).length < minLen) :
    acceptMatch minLen maxLen paper qtype isOcr acc m = acc := by
  simp [acceptMatch, h]

theorem acceptMatch_eq (minLen maxLen : Nat) (paper qtype : String)
    (isOcr : Bool) (acc : List Question) (m : String × String) :
    acceptMatch minLen maxLen paper qtype isOcr acc m =
      if (processContent isOcr m.2).length < minLen then acc
      else if junkOnly (processContent isOcr m.2) then acc
      else acc ++ [⟨paper, qtype, m.1,
                    String.mk ((processContent isOcr m.2).take maxLen)⟩] := rfl

theorem acceptMatch_skip_junk (minLen maxLen : Nat) (paper qtype : String)
    (isOcr : Bool) (acc : List Question) (m : String × String)
    (h : junkOnly (processContent isOcr m.2) = true) :
    acceptMatch minLen maxLen paper qtype isOcr acc m = acc := by
  rw [acceptMatch_eq]
  by_cases hl : (processContent isOcr m.2).length < minLen
  · rw [if_pos hl]
  · rw [if_neg hl, if_pos h]

theorem acceptMatch_emit (minLen maxLen : Nat) (paper qtype : String)
    (isOcr : Bool) (acc : List Question) (m : String × String)
    (h1 : ¬ (processContent isOcr m.2).length < minLen)
    (h2 : junkOnly (processContent isOcr m.2) = false) :
    acceptMatch minLen maxLen paper qtype isOcr acc m =
      acc ++ [⟨paper, qtype, m.1, String.mk ((processContent isOcr m.2).take maxLen)⟩] := by
  simp [acceptMatch, h1, h2]

theorem acceptMatch_bounds (minLen maxLen : Nat) (paper qtype : String)
    (isOcr : Bool) (acc : List Question) (m : String × String)
    (hmm : minLen ≤ maxLen)
    (hacc : ∀ q ∈ acc, minLen ≤ q.Content.length ∧ q.Content.length ≤ maxLen) :
    ∀ q ∈ acceptMatch minLen maxLen paper qtype isOcr acc m,
      minLen ≤ q.Content.length ∧ q.Content.length ≤ maxLen := by
  rw [acceptMatch_eq]
  by_cases h1 : (processContent isOcr m.2).length < minLen
  · rw [if_pos h1]; exact hacc
  · rw [if_neg h1]
    by_cases h2 : junkOnly (processContent isOcr m.2) = true
    · rw [if_pos h2]; exact hacc
    · rw [if_neg h2]
      intro q hq
      rcases List.mem_append.mp hq with hq | hq
      · exact hacc q hq
      · rcases List.mem_singleton.mp hq with rfl
        have hc : (String.mk ((processContent isOcr m.2).take maxLen)).length =
            min maxLen (processContent isOcr m.2).length := by
          simp [String.length, List.length_take]
        constructor
        · simp only [hc]
          exact le_min hmm (Nat.le_of_not_lt h1)
        · simp only [hc]
          exact min_le_left _ _

theorem foldl_acceptMatch_bounds (minLen maxLen : Nat) (paper qtype : String)
    (isOcr : Bool) (hmm : minLen ≤ maxLen) :
    ∀ (ms : List (String × String)) (acc : List Question),
      (∀ q ∈ acc, minLen ≤ q.Content.length ∧ q.Content.length ≤ maxLen) →
      ∀ q ∈ ms.foldl (acceptMatch minLen maxLen paper qtype isOcr) acc,
        minLen ≤ q.Content.length ∧ q.Content.length ≤ maxLen
  | [], _acc, hacc => hacc
  | m :: ms, acc, hacc =>
    foldl_acceptMatch_bounds minLen maxLen paper qtype isOcr hmm ms _
      (acceptMatch_bounds minLen maxLen paper qtype isOcr acc m hmm hacc)

theorem runPatterns_bounds (minLen maxLen : Nat) (paper qtype content : String)
    (isOcr : Bool) (hmm : minLen ≤ maxLen) :
    ∀ (pats : List QPattern) (acc : List Question),
      (∀ q ∈ acc, minLen ≤ q.Content.length ∧ q.Content.length ≤ maxLen) →
      ∀ q ∈ runPatterns minLen maxLen paper qtype content isOcr pats acc,
        minLen ≤ q.Content.length ∧ q.Content.length ≤ maxLen
  | [], acc, hacc => hacc
  | p :: rest, acc, hacc => by
    have hacc' := foldl_acceptMatch_bounds minLen maxLen paper qtype isOcr hmm
      (p content) acc hacc
    have heq : runPatterns minLen maxLen paper qtype content isOcr (p :: rest) acc =
        if ((p content).foldl (acceptMatch minLen maxLen paper qtype isOcr) acc).isEmpty then
          runPatterns minLen maxLen paper qtype content isOcr rest
            ((p content).foldl (acceptMatch minLen maxLen paper qtype isOcr) acc)
        else (p content).foldl (acceptMatch minLen maxLen paper qtype isOcr) acc := rfl
    rw [heq]
    by_cases he :
        ((p content).foldl (acceptMatch minLen maxLen paper qtype isOcr) acc).isEmpty
    · rw [if_pos he]
      exact runPatterns_bounds minLen maxLen paper qtype content isOcr hmm rest _ hacc'
    · rw [if_neg he]
      exact hacc'

/-- C7: Every emitted `QuestionRecord` has content length within
`[min_content_length, max_content_length]`; a candidate whose cleaned
content is shorter than the minimum is discarded entirely; a candidate
whose content is only digits, option letters `A`-`D`, whitespace and
parentheses is rejected as junk; an accepted candidate is emitted with
its cleaned content truncated to the maximum length (so an over-long one
comes out with exactly `max_content_length` characters). -/
theorem c7_content_length_bounds (cfg : ParserConfig) (sec : ExamSection)
    (hmm : cfg.minContentLength ≤ cfg.maxContentLength) :
    (∀ q ∈ extract_questions_from_section cfg sec,
        cfg.minContentLength ≤ q.Content.length ∧
        q.Content.length ≤ cfg.maxContentLength) ∧
    (∀ (isOcr : Bool) (acc : List Question) (m : String × String),
        (processContent isOcr m.2).length < cfg.minContentLength →
        acceptMatch cfg.minContentLength cfg.maxContentLength sec.paper sec.type
          isOcr acc m = acc) ∧
    (∀ (isOcr : Bool) (acc : List Question) (m : String × String),
        junkOnly (processContent isOcr m.2) = true →
        acceptMatch cfg.minContentLength cfg.maxContentLength sec.paper sec.type
          isOcr acc m = acc) ∧
    (∀ (isOcr : Bool) (acc : List Question) (m : String × String),
        ¬ (processContent isOcr m.2).length < cfg.minContentLength →
        junkOnly (processContent isOcr m.2) = false →
        acceptMatch cfg.minContentLength cfg.maxContentLength sec.paper sec.type
          isOcr acc m =
          acc ++ [⟨sec.paper, sec.type, m.1,
                   String.mk ((processContent isOcr m.2).take cfg.maxContentLength)⟩]) :=
  ⟨fun q hq => runPatterns_bounds cfg.minContentLength cfg.maxContentLength sec.paper
      sec.type sec.content (sec.source == "ocr") hmm _ [] (by intro q hq; cases hq) q hq,
   fun isOcr acc m h =>
     acceptMatch_skip_short cfg.minContentLength cfg.maxContentLength sec.paper
       sec.type isOcr acc m h,
   fun isOcr acc m h =>
     acceptMatch_skip_junk cfg.minContentLength cfg.maxContentLength sec.paper
       sec.type isOcr acc m h,
   fun isOcr acc m h1 h2 =>
     acceptMatch_emit cfg.minContentLength cfg.maxContentLength sec.paper
       sec.type isOcr acc m h1 h2⟩

/-- C7 witness: the bounds instantiated at a concrete configuration,
section and emitted record. -/
theorem c7_content_length_bounds_witness :
    10 ≤ (Question.mk "卷一" "一" "1" "这道题目的内容足够长可以通过").Content.length ∧
    (Question.mk "卷一" "一" "1" "这道题目的内容足够长可以通过").Content.length ≤ 800 :=
  (c7_content_length_bounds cfgW secNatW (by decide)).1
    ⟨"卷一", "一", "1", "这道题目的内容足够长可以通过"⟩ (by decide)

theorem assess_char_count (t : List Char) :
    (assess_text_quality t).char_count = if t.isEmpty then 0 else t.length := by
  unfold assess_text_quality
  by_cases ht : t.isEmpty
  · simp [ht]
  · simp [ht]

/-- A page whose text is shorter than 50 characters is always flagged
for recognition (the `char_count < 50` disjunct), independently of its
quality score. -/
theorem needs_ocr_of_short (t : List Char) (h : t.length < 50) :
    needs_ocr t = true := by
  unfold needs_ocr
  simp only [Bool.or_eq_true, decide_eq_true_eq]
  right
  rw [assess_char_count]
  by_cases ht : t.isEmpty
  · rw [if_pos ht]; omega
  · rw [if_neg ht]; exact h

theorem hybridExtractSpec_cons (t? : Option String) (rest : List (Option String))
    (ocrs : List String) (i : Nat) :
    hybridExtractSpec (t? :: rest) ocrs i =
      if needs_ocr (t?.getD "").data then
        match ocrs with
        | [] => ⟨i + 1, t?.getD "", "pending_ocr"⟩ :: hybridExtractSpec rest [] (i + 1)
        | r :: ocrs' =>
          (if r ≠ "" then (⟨i + 1, r, "ocr"⟩ : PageEntry)
           else ⟨i + 1, t?.getD "", "pdfplumber_fallback"⟩) ::
            hybridExtractSpec rest ocrs' (i + 1)
      else ⟨i + 1, t?.getD "", "pdfplumber"⟩ :: hybridExtractSpec rest ocrs (i + 1) := rfl

theorem hybridPass1_flagged_ge :
    ∀ (ns : List (Option String)) (i : Nat), ∀ j ∈ (hybridPass1 ns i).2, i ≤ j
  | [], _, _, hj => absurd hj (List.not_mem_nil _)
  | t? :: rest, i, j, hj => by
    have hrec := hybridPass1_flagged_ge rest (i + 1)
    unfold hybridPass1 at hj
    by_cases hf : needs_ocr (t?.getD "").data
    · simp only [hf, if_pos] at hj
      rcases List.mem_cons.mp hj with rfl | hj
      · exact le_refl j
      · exact Nat.le_of_succ_le (hrec j hj)
    · simp only [hf] at hj
      exact Nat.le_of_succ_le (hrec j hj)

theorem foldl_modify_shift (i : Nat) :
    ∀ (ups : List (Nat × String)) (x : PageEntry) (l : List PageEntry),
      (∀ u ∈ ups, i + 1 ≤ u.1) →
      ups.foldl (fun ps u => listModify (ocrUpdate u.2) (u.1 - i) ps) (x :: l) =
        x :: ups.foldl (fun ps u => listModify (ocrUpdate u.2) (u.1 - (i + 1)) ps) l
  | [], _, _, _ => rfl
  | u :: ups, x, l, h => by
    have hu : i + 1 ≤ u.1 := h u (List.mem_cons_self _ _)
    have hstep : u.1 - i = (u.1 - (i + 1)) + 1 := by omega
    calc ((u :: ups).foldl (fun ps v => listModify (ocrUpdate v.2) (v.1 - i) ps) (x :: l))
        = ups.foldl (fun ps v => listModify (ocrUpdate v.2) (v.1 - i) ps)
            (listModify (ocrUpdate u.2) (u.1 - i) (x :: l)) := rfl
      _ = ups.foldl (fun ps v => listModify (ocrUpdate v.2) (v.1 - i) ps)
            (x :: listModify (ocrUpdate u.2) (u.1 - (i + 1)) l) := by
            rw [hstep]; rfl
      _ = x :: ups.foldl (fun ps v => listModify (ocrUpdate v.2) (v.1 - (i + 1)) ps)
            (listModify (ocrUpdate u.2) (u.1 - (i + 1)) l) :=
            foldl_modify_shift i ups x _ (fun v hv => h v (List.mem_cons_of_mem _ hv))

theorem hybrid_fold_eq_spec :
    ∀ (ns : List (Option String)) (ocrs : List String) (i : Nat),
      ocrs.length = (hybridPass1 ns i).2.length →
      ((hybridPass1 ns i).2.zip ocrs).foldl
          (fun ps u => listModify (ocrUpdate u.2) (u.1 - i) ps) (hybridPass1 ns i).1 =
        hybridExtractSpec ns ocrs i
  | [], ocrs, i, _ => by
    simp [hybridPass1, hybridExtractSpec]
  | t? :: rest, ocrs, i, hlen => by
    by_cases hf : needs_ocr (t?.getD "").data
    · have hp : hybridPass1 (t? :: rest) i =
          (⟨i + 1, t?.getD "", "pending_ocr"⟩ :: (hybridPass1 rest (i + 1)).1,
           i :: (hybridPass1 rest (i + 1)).2) := by
        simp [hybridPass1, hf]
      rw [hp] at hlen ⊢
      match ocrs, hlen with
      | r :: ocrs', hlen => ?_
      have hlen' : ocrs'.length = (hybridPass1 rest (i + 1)).2.length := by
        simpa using hlen
      have hge : ∀ u ∈ (hybridPass1 rest (i + 1)).2.zip ocrs', i + 1 ≤ u.1 := by
        intro u hu
        exact hybridPass1_flagged_ge rest (i + 1) u.1 (List.of_mem_zip hu).1
      calc (((i :: (hybridPass1 rest (i + 1)).2).zip (r :: ocrs')).foldl
              (fun ps u => listModify (ocrUpdate u.2) (u.1 - i) ps)
              (⟨i + 1, t?.getD "", "pending_ocr"⟩ :: (hybridPass1 rest (i + 1)).1))
          = ((hybridPass1 rest (i + 1)).2.zip ocrs').foldl
              (fun ps u => listModify (ocrUpdate u.2) (u.1 - i) ps)
              (ocrUpdate r ⟨i + 1, t?.getD "", "pending_ocr"⟩ ::
                (hybridPass1 rest (i + 1)).1) := by
              simp only [List.zip_cons_cons, List.foldl_cons, Nat.sub_self]
              rfl
        _ = ocrUpdate r ⟨i + 1, t?.getD "", "pending_ocr"⟩ ::
              ((hybridPass1 rest (i + 1)).2.zip ocrs').foldl
                (fun ps u => listModify (ocrUpdate u.2) (u.1 - (i + 1)) ps)
                (hybridPass1 rest (i + 1)).1 :=
              foldl_modify_shift i _ _ _ hge
        _ = ocrUpdate r ⟨i + 1, t?.getD "", "pending_ocr"⟩ ::
              hybridExtractSpec rest ocrs' (i + 1) := by
              rw [hybrid_fold_eq_spec rest ocrs' (i + 1) hlen']
        _ = hybridExtractSpec (t? :: rest) (r :: ocrs') i := by
              rw [hybridExtractSpec_cons]
              simp only [hf, if_pos]
              by_cases hr : r ≠ ""
              · simp [ocrUpdate, hr]
              · simp [ocrUpdate, hr]
    · have hp : hybridPass1 (t? :: rest) i =
          (⟨i + 1, t?.getD "", "pdfplumber"⟩ :: (hybridPass1 rest (i + 1)).1,
           (hybridPass1 rest (i + 1)).2) := by
        simp [hybridPass1, hf]
      rw [hp] at hlen ⊢
      have hge : ∀ u ∈ (hybridPass1 rest (i + 1)).2.zip ocrs, i + 1 ≤ u.1 := by
        intro u hu
        exact hybridPass1_flagged_ge rest (i + 1) u.1 (List.of_mem_zip hu).1
      rw [foldl_modify_shift i _ _ _ hge,
          hybrid_fold_eq_spec rest ocrs (i + 1) hlen]
      rw [hybridExtractSpec_cons]
      simp only [hf]
      rfl

theorem hybrid_eq_spec (natives : List (Option String)) (ocrTexts : List String)
    (hlen : ocrTexts.length = (hybridPass1 natives 0).2.length) :
    hybrid_extract natives ocrTexts = hybridExtractSpec natives ocrTexts 0 := by
  have hfun : (fun (ps : List PageEntry) (u : Nat × String) =>
      listModify (ocrUpdate u.2) u.1 ps) =
      (fun ps u => listModify (ocrUpdate u.2) (u.1 - 0) ps) := by
    funext ps u
    rw [Nat.sub_zero]
  rw [hybrid_extract, hfun]
  exact hybrid_fold_eq_spec natives ocrTexts 0 hlen

theorem hybridExtractSpec_length :
    ∀ (ns : List (Option String)) (ocrs : List String) (i : Nat),
      (hybridExtractSpec ns ocrs i).length = ns.length
  | [], _, _ => rfl
  | t? :: rest, ocrs, i => by
    rw [hybridExtractSpec_cons]
    by_cases hf : needs_ocr (t?.getD "").data
    · simp only [hf, if_pos]
      match ocrs with
      | [] => simp [hybridExtractSpec_length rest [] (i + 1)]
      | r :: ocrs' => simp [hybridExtractSpec_length rest ocrs' (i + 1)]
    · simp [hf, hybridExtractSpec_length rest ocrs (i + 1)]

theorem hybridExtractSpec_page_num :
    ∀ (ns : List (Option String)) (ocrs : List String) (i k : Nat),
      ((hybridExtractSpec ns ocrs i).get? k).map PageEntry.page_num =
        if k < ns.length then some (i + k + 1) else none
  | [], _, _, k => by simp [hybridExtractSpec]
  | t? :: rest, ocrs, i, k => by
    rw [hybridExtractSpec_cons]
    by_cases hf : needs_ocr (t?.getD "").data
    · simp only [hf, if_pos]
      match ocrs with
      | [] =>
        match k with
        | 0 => simp
        | k + 1 =>
          simp only [List.get?_cons_succ, List.length_cons]
          rw [hybridExtractSpec_page_num rest [] (i + 1) k]
          by_cases hk : k < rest.length
          · rw [if_pos hk, if_pos (by omega)]
            congr 1
            omega
          · rw [if_neg hk, if_neg (by omega)]
      | r :: ocrs' =>
        match k with
        | 0 =>
          by_cases hr : r ≠ ""
          · simp [hr]
          · simp [hr]
        | k + 1 =>
          simp only [List.get?_cons_succ, List.length_cons]
          rw [hybridExtractSpec_page_num rest ocrs' (i + 1) k]
          by_cases hk : k < rest.length
          · rw [if_pos hk, if_pos (by omega)]
            congr 1
            omega
          · rw [if_neg hk, if_neg (by omega)]
    · rw [if_neg hf]
      match k with
      | 0 => simp
      | k + 1 =>
        simp only [List.get?_cons_succ, List.length_cons]
        rw [hybridExtractSpec_page_num rest ocrs (i + 1) k]
        by_cases hk : k < rest.length
        · rw [if_pos hk, if_pos (by omega)]
          congr 1
          omega
        · rw [if_neg hk, if_neg (by omega)]

/-- C5: `HybridExtractor.extract` produces exactly one entry per source
page in source order.  Given the batch OCR results for the flagged pages
(one per flagged page, the `hlen` hypothesis mirroring the zip of lines
137-142), the two-phase code equals the per-page description: a page is
flagged for recognition iff its quality score is below 3/10 or its
character count is below 50 (the score being
`min(cjk/500, 2/5) + cjk_ratio * 3/10 + (3/10 when a structure keyword
occurs)`); an unflagged page keeps its native text with source
`pdfplumber` (the spec's `native`); a flagged page with non-empty
recognized text carries that text with source `ocr` (`recognized`); a
flagged page with empty recognized text keeps its native text with
source `pdfplumber_fallback` (`recognized_fallback`); no page is
discarded. -/
theorem c5_hybrid_extract_per_page (natives : List (Option String))
    (ocrTexts : List String)
    (hlen : ocrTexts.length = (hybridPass1 natives 0).2.length) :
    hybrid_extract natives ocrTexts = hybridExtractSpec natives ocrTexts 0 ∧
    (hybrid_extract natives ocrTexts).length = natives.length ∧
    ∀ t : List Char, needs_ocr t =
      (decide (min ((chineseCount t : ℚ) / 500) (2 / 5) +
          ((chineseCount t : ℚ) / (t.length : ℚ)) * (3 / 10) +
          (if hasStructureKeyword t then (3 / 10 : ℚ) else 0) < (3 / 10 : ℚ)) ||
        decide (t.length < 50)) := by
  refine ⟨hybrid_eq_spec natives ocrTexts hlen, ?_, ?_⟩
  · rw [hybrid_eq_spec natives ocrTexts hlen]
    exact hybridExtractSpec_length natives ocrTexts 0
  · intro t
    by_cases ht : t.isEmpty
    · have h0 : t = [] := List.isEmpty_iff.mp ht
      subst h0
      have hL : needs_ocr [] = true := needs_ocr_of_short [] (by decide)
      have hR : decide (([] : List Char).length < 50) = true := by decide
      rw [hL, hR, Bool.or_true]
    · simp only [needs_ocr, assess_text_quality, ht, Bool.false_eq_true, if_false]

/-- C5 witness: a two-page document whose pages are both flagged (short
native text and a missing text layer); the first OCR text is non-empty,
the second empty. -/
theorem c5_hybrid_extract_per_page_witness :
    hybrid_extract [some "短", none] ["识别结果文本", ""] =
      hybridExtractSpec [some "短", none] ["识别结果文本", ""] 0 :=
  (c5_hybrid_extract_per_page [some "短", none] ["识别结果文本", ""]
    (by
      have h1 : needs_ocr ("短" : String).data = true :=
        needs_ocr_of_short _ (by decide)
      have h2 : needs_ocr ("" : String).data = true :=
        needs_ocr_of_short _ (by decide)
      simp [hybridPass1, h1, h2])).1

/-- C9: Counterexample to the claim as stated.  A one-page document (a
page with no text layer, flagged, with empty recognition result) yields
the single entry with `page_num = 1`: the stored page index of the 0th
source page is 1, not 0 — the code numbers pages 1-based
(`'page_num': i + 1`, extractor.py lines 111 and 117). -/
theorem c9_page_index_counterexample :
    (hybrid_extract [none] [""]).map PageEntry.page_num = [1] ∧ (1 : Nat) ≠ 0 := by
  have h2 : needs_ocr ("" : String).data = true := needs_ocr_of_short _ (by decide)
  constructor
  · simp [hybrid_extract, hybridPass1, h2, listModify, ocrUpdate]
  · decide

/-- C9 (amended): For every source document (given the batch OCR results
for the flagged pages), `HybridExtractor.extract` emits one entry per
source page with `page_num` values forming the contiguous 1-based range
matching source order: the k-th source page (k counted from 0) yields
the entry at position k carrying `page_num = k + 1`, with no gaps. -/
theorem c9_page_index_contiguous (natives : List (Option String))
    (ocrTexts : List String)
    (hlen : ocrTexts.length = (hybridPass1 natives 0).2.length) :
    (hybrid_extract natives ocrTexts).length = natives.length ∧
    ∀ k : Nat, ((hybrid_extract natives ocrTexts).get? k).map PageEntry.page_num =
      if k < natives.length then some (k + 1) else none := by
  rw [hybrid_eq_spec natives ocrTexts hlen]
  refine ⟨hybridExtractSpec_length natives ocrTexts 0, ?_⟩
  intro k
  rw [hybridExtractSpec_page_num natives ocrTexts 0 k]
  by_cases hk : k < natives.length
  · rw [if_pos hk, if_pos hk]
    congr 1
    omega
  · rw [if_neg hk, if_neg hk]

/-- C9 witness: the amended statement instantiated at a concrete
two-page document. -/
theorem c9_page_index_contiguous_witness :
    ((hybrid_extract [some "短", none] ["识别结果文本", ""]).get? 1).map
        PageEntry.page_num =
      if 1 < ([some "短", none] : List (Option String)).length then some 2 else none :=
  (c9_page_index_contiguous [some "短", none] ["识别结果文本", ""]
    (by
      have h1 : needs_ocr ("短" : String).data = true :=
        needs_ocr_of_short _ (by decide)
      have h2 : needs_ocr ("" : String).data = true :=
        needs_ocr_of_short _ (by decide)
      simp [hybridPass1, h1, h2])).2 1

/-! ### Cache and OCR-engine lemmas -/

theorem cacheLookup_insert (c : Cache) (k : Nat) (v : String) (k' : Nat) :
    cacheLookup (cacheInsert c k v) k' = if k' = k then some v else cacheLookup c k' := by
  by_cases h : k' = k
  · subst h
    simp [cacheLookup, cacheInsert, List.find?]
  · have hb : (k == k') = false := by
      simpa using fun he => h he.symm
    simp [cacheLookup, cacheInsert, List.find?, hb, h]

theorem etp_useCache_false {π : Type} (recog : π → Except Unit String) (fp : π → Nat)
    (c : Cache) (p : π) :
    extract_text_from_page recog fp c p false = ⟨workerText recog p, c, true⟩ := by
  cases h : recog p with
  | error e => simp [extract_text_from_page, runRecognition, workerText, h]
  | ok t => simp [extract_text_from_page, runRecognition, workerText, h]

theorem etp_hit {π : Type} (recog : π → Except Unit String) (fp : π → Nat)
    (c : Cache) (p : π) (t : String) (h : cacheHitText c (fp p) = some t) :
    extract_text_from_page recog fp c p true = ⟨t, c, false⟩ := by
  unfold cacheHitText at h
  cases hl : cacheLookup c (fp p) with
  | none => rw [hl] at h; cases h
  | some u =>
    simp only [hl] at h
    by_cases hu : u = ""
    · rw [if_pos hu] at h; cases h
    · rw [if_neg hu] at h
      injection h with h
      subst h
      simp [extract_text_from_page, hl, hu]

theorem etp_miss {π : Type} (recog : π → Except Unit String) (fp : π → Nat)
    (c : Cache) (p : π) (h : cacheHitText c (fp p) = none) :
    extract_text_from_page recog fp c p true = runRecognition recog fp c p true := by
  unfold cacheHitText at h
  cases hl : cacheLookup c (fp p) with
  | none => simp [extract_text_from_page, hl]
  | some u =>
    simp only [hl] at h
    by_cases hu : u = ""
    · subst hu
      simp [extract_text_from_page, hl]
    · rw [if_neg hu] at h; cases h

theorem runRecognition_invoked {π : Type} (recog : π → Except Unit String) (fp : π → Nat)
    (c : Cache) (p : π) (u : Bool) :
    (runRecognition recog fp c p u).invoked = true := by
  cases h : recog p with
  | error e => simp [runRecognition, h]
  | ok t =>
    by_cases hc : u = true ∧ t ≠ ""
    · simp [runRecognition, h, hc]
    · simp only [runRecognition, h]
      rw [if_neg (by simpa using hc)]

theorem runRecognition_cache_write {π : Type} (recog : π → Except Unit String)
    (fp : π → Nat) (c : Cache) (p : π) (u : Bool) (k : Nat) (v : String)
    (h : cacheLookup (runRecognition recog fp c p u).cache k = some v) :
    cacheLookup c k = some v ∨ v ≠ "" := by
  cases hr : recog p with
  | error e =>
    rw [runRecognition, hr] at h
    exact Or.inl h
  | ok t =>
    simp only [runRecognition, hr] at h
    by_cases hc : u = true ∧ t ≠ ""
    · rw [if_pos hc] at h
      simp only at h
      rw [cacheLookup_insert] at h
      by_cases hk : k = fp p
      · rw [if_pos hk] at h
        injection h with h
        subst h
        exact Or.inr hc.2
      · rw [if_neg hk] at h
        exact Or.inl h
    · rw [if_neg hc] at h
      exact Or.inl h

theorem etp_cache_write {π : Type} (recog : π → Except Unit String) (fp : π → Nat)
    (c : Cache) (p : π) (u : Bool) (k : Nat) (v : String)
    (h : cacheLookup (extract_text_from_page recog fp c p u).cache k = some v) :
    cacheLookup c k = some v ∨ v ≠ "" := by
  cases u with
  | false =>
    rw [etp_useCache_false] at h
    exact Or.inl h
  | true =>
    cases hh : cacheHitText c (fp p) with
    | some t =>
      rw [etp_hit recog fp c p t hh] at h
      exact Or.inl h
    | none =>
      rw [etp_miss recog fp c p hh] at h
      exact runRecognition_cache_write recog fp c p true k v h

theorem etp_no_invoke {π : Type} (recog : π → Except Unit String) (fp : π → Nat)
    (c : Cache) (p : π) (u : Bool)
    (h : (extract_text_from_page recog fp c p u).invoked = false) :
    (extract_text_from_page recog fp c p u).text ≠ "" ∧
    cacheLookup c (fp p) = some (extract_text_from_page recog fp c p u).text ∧
    (extract_text_from_page recog fp c p u).cache = c := by
  cases u with
  | false =>
    rw [etp_useCache_false] at h
    cases h
  | true =>
    cases hh : cacheHitText c (fp p) with
    | some t =>
      rw [etp_hit recog fp c p t hh]
      unfold cacheHitText at hh
      cases hl : cacheLookup c (fp p) with
      | none => rw [hl] at hh; cases hh
      | some u' =>
        simp only [hl] at hh
        by_cases hu : u' = ""
        · rw [if_pos hu] at hh; cases hh
        · rw [if_neg hu] at hh
          injection hh with hh
          subst hh
          exact ⟨hu, rfl, rfl⟩
    | none =>
      rw [etp_miss recog fp c p hh, runRecognition_invoked] at h
      cases h

/-! ### Worker-loop lemmas -/

theorem runWorkers_cons {π : Type} (recog : π → Except Unit String) (fp : π → Nat)
    (pages : List π) (u : Bool) (idx : Nat) (rest : List Nat)
    (results : List (Option String)) (c : Cache) :
    runWorkers recog fp pages u (idx :: rest) results c =
      match pages.get? idx with
      | none => runWorkers recog fp pages u rest results c
      | some p =>
        runWorkers recog fp pages u rest
          (results.set idx (some (extract_text_from_page recog fp c p false).text))
          (if (extract_text_from_page recog fp c p false).text ≠ "" ∧ u then
            cacheInsert c (fp p) (extract_text_from_page recog fp c p false).text
           else c) := rfl

theorem runWorkers_cache_write {π : Type} (recog : π → Except Unit String)
    (fp : π → Nat) (pages : List π) (u : Bool) :
    ∀ (order : List Nat) (results : List (Option String)) (c : Cache) (k : Nat)
      (v : String),
      cacheLookup (runWorkers recog fp pages u order results c).2 k = some v →
      cacheLookup c k = some v ∨ v ≠ ""
  | [], _, _, _, _, h => Or.inl h
  | idx :: rest, results, c, k, v, h => by
    rw [runWorkers_cons] at h
    cases hp : pages.get? idx with
    | none =>
      rw [hp] at h
      exact runWorkers_cache_write recog fp pages u rest results c k v h
    | some p =>
      rw [hp] at h
      have hrec := runWorkers_cache_write recog fp pages u rest _ _ k v h
      rcases hrec with hrec | hrec
      · by_cases hw : (extract_text_from_page recog fp c p false).text ≠ "" ∧ u = true
        · rw [if_pos hw, cacheLookup_insert] at hrec
          by_cases hk : k = fp p
          · rw [if_pos hk] at hrec
            injection hrec with hrec
            subst hrec
            exact Or.inr hw.1
          · rw [if_neg hk] at hrec
            exact Or.inl hrec
        · rw [if_neg hw] at hrec
          exact Or.inl hrec
      · exact Or.inr hrec

theorem runWorkers_length {π : Type} (recog : π → Except Unit String) (fp : π → Nat)
    (pages : List π) (u : Bool) :
    ∀ (order : List Nat) (results : List (Option String)) (c : Cache),
      (runWorkers recog fp pages u order results c).1.length = results.length
  | [], _, _ => rfl
  | idx :: rest, results, c => by
    rw [runWorkers_cons]
    cases hp : pages.get? idx with
    | none =>
      exact runWorkers_length recog fp pages u rest results c
    | some p =>
      rw [runWorkers_length recog fp pages u rest _ _, List.length_set]

theorem runWorkers_getElem_not_mem {π : Type} (recog : π → Except Unit String)
    (fp : π → Nat) (pages : List π) (u : Bool) :
    ∀ (order : List Nat) (results : List (Option String)) (c : Cache) (i : Nat),
      i ∉ order →
      ((runWorkers recog fp pages u order results c).1)[i]? = results[i]?
  | [], _, _, _, _ => rfl
  | idx :: rest, results, c, i, hi => by
    have hne : idx ≠ i := fun h => hi (h ▸ List.mem_cons_self _ _)
    have hrest : i ∉ rest := fun h => hi (List.mem_cons_of_mem _ h)
    rw [runWorkers_cons]
    cases hp : pages.get? idx with
    | none =>
      exact runWorkers_getElem_not_mem recog fp pages u rest results c i hrest
    | some p =>
      rw [runWorkers_getElem_not_mem recog fp pages u rest _ _ i hrest]
      exact List.getElem?_set_ne hne

theorem runWorkers_getElem_mem {π : Type} (recog : π → Except Unit String)
    (fp : π → Nat) (pages : List π) (u : Bool) :
    ∀ (order : List Nat) (results : List (Option String)) (c : Cache) (i : Nat) (p : π),
      results.length = pages.length → pages.get? i = some p → i ∈ order →
      ((runWorkers recog fp pages u order results c).1)[i]? =
        some (some (workerText recog p))
  | [], _, _, _, _, _, _, hi => absurd hi (List.not_mem_nil _)
  | idx :: rest, results, c, i, p, hlen, hp, hi => by
    rw [runWorkers_cons]
    by_cases hmem : i ∈ rest
    · cases hq : pages.get? idx with
      | none =>
        exact runWorkers_getElem_mem recog fp pages u rest results c i p hlen hp hmem
      | some q =>
        refine runWorkers_getElem_mem recog fp pages u rest _ _ i p ?_ hp hmem
        rw [List.length_set]
        exact hlen
    · have hidx : i = idx := by
        rcases List.mem_cons.mp hi with h | h
        · exact h
        · exact absurd h hmem
      subst hidx
      rw [hp]
      rw [runWorkers_getElem_not_mem recog fp pages u rest _ _ i hmem]
      have hlt : i < results.length := by
        rw [hlen]
        rcases List.get?_eq_some.mp hp with ⟨h, _⟩
        exact h
      rw [etp_useCache_false]
      exact List.getElem?_set_eq_of_lt _ hlt

/-! ### Cache-scan lemmas -/

theorem splitHits_misses_mem {π : Type} (c : Cache) (fp : π → Nat) :
    ∀ (l : List π) (j i : Nat),
      i ∈ (splitHits c fp l j).2 ↔
        ∃ k p, l.get? k = some p ∧ i = j + k ∧ cacheHitText c (fp p) = none
  | [], j, i => by simp [splitHits]
  | p0 :: rest, j, i => by
    rw [splitHits]
    cases hh : cacheHitText c (fp p0) with
    | some t =>
      simp only
      rw [splitHits_misses_mem c fp rest (j + 1) i]
      constructor
      · rintro ⟨k, p, hk, hik, hmiss⟩
        exact ⟨k + 1, p, by simpa using hk, by omega, hmiss⟩
      · rintro ⟨k, p, hk, hik, hmiss⟩
        match k with
        | 0 =>
          simp only [List.get?_cons_zero] at hk
          injection hk with hk
          subst hk
          rw [hh] at hmiss
          cases hmiss
        | k + 1 =>
          exact ⟨k, p, by simpa using hk, by omega, hmiss⟩
    | none =>
      simp only [List.mem_cons]
      rw [splitHits_misses_mem c fp rest (j + 1) i]
      constructor
      · rintro (rfl | ⟨k, p, hk, hik, hmiss⟩)
        · exact ⟨0, p0, by simp, by omega, hh⟩
        · exact ⟨k + 1, p, by simpa using hk, by omega, hmiss⟩
      · rintro ⟨k, p, hk, hik, hmiss⟩
        match k with
        | 0 =>
          left
          omega
        | k + 1 =>
          right
          exact ⟨k, p, by simpa using hk, by omega, hmiss⟩

theorem splitHits_hits_mem {π : Type} (c : Cache) (fp : π → Nat) :
    ∀ (l : List π) (j i : Nat) (t : String),
      (i, t) ∈ (splitHits c fp l j).1 ↔
        ∃ k p, l.get? k = some p ∧ i = j + k ∧ cacheHitText c (fp p) = some t
  | [], j, i, t => by simp [splitHits]
  | p0 :: rest, j, i, t => by
    rw [splitHits]
    cases hh : cacheHitText c (fp p0) with
    | some t0 =>
      simp only [List.mem_cons]
      rw [splitHits_hits_mem c fp rest (j + 1) i t]
      constructor
      · rintro (heq | ⟨k, p, hk, hik, hhit⟩)
        · injection heq with h1 h2
          subst h1
          subst h2
          exact ⟨0, p0, by simp, by omega, hh⟩
        · exact ⟨k + 1, p, by simpa using hk, by omega, hhit⟩
      · rintro ⟨k, p, hk, hik, hhit⟩
        match k with
        | 0 =>
          left
          simp only [List.get?_cons_zero] at hk
          injection hk with hk
          subst hk
          rw [hh] at hhit
          injection hhit with hhit
          subst hhit
          have : i = j := by omega
          subst this
          rfl
        | k + 1 =>
          right
          exact ⟨k, p, by simpa using hk, by omega, hhit⟩
    | none =>
      simp only
      rw [splitHits_hits_mem c fp rest (j + 1) i t]
      constructor
      · rintro ⟨k, p, hk, hik, hhit⟩
        exact ⟨k + 1, p, by simpa using hk, by omega, hhit⟩
      · rintro ⟨k, p, hk, hik, hhit⟩
        match k with
        | 0 =>
          simp only [List.get?_cons_zero] at hk
          injection hk with hk
          subst hk
          rw [hh] at hhit
          cases hhit
        | k + 1 =>
          exact ⟨k, p, by simpa using hk, by omega, hhit⟩

theorem splitHits_no_misses {π : Type} (recog : π → Except Unit String) (c : Cache)
    (fp : π → Nat) :
    ∀ (l : List π) (j : Nat), (splitHits c fp l j).2 = [] →
      (splitHits c fp l j).1.map (fun h => some h.2) =
        l.map (fun p => some (expectedText recog fp c p))
  | [], _, _ => rfl
  | p0 :: rest, j, h => by
    rw [splitHits] at h ⊢
    cases hh : cacheHitText c (fp p0) with
    | some t =>
      rw [hh] at h
      simp only at h ⊢
      have he : expectedText recog fp c p0 = t := by
        unfold expectedText
        rw [hh]
      rw [List.map_cons, List.map_cons, he,
        splitHits_no_misses recog c fp rest (j + 1) h]
    | none =>
      rw [hh] at h
      cases h

theorem foldl_set_length :
    ∀ (entries : List (Nat × String)) (rs : List (Option String)),
      (entries.foldl (fun rs h => rs.set h.1 (some h.2)) rs).length = rs.length
  | [], _ => rfl
  | e :: es, rs => by
    rw [List.foldl_cons, foldl_set_length es _, List.length_set]

theorem foldl_set_getElem (V : Nat → Option String) :
    ∀ (entries : List (Nat × String)) (rs : List (Option String)) (i : Nat),
      (∀ e ∈ entries, V e.1 = some e.2) →
      (entries.foldl (fun rs h => rs.set h.1 (some h.2)) rs)[i]? =
        if i ∈ entries.map Prod.fst then
          (if i < rs.length then (V i).map some else none)
        else rs[i]?
  | [], rs, i, _ => by simp
  | e :: es, rs, i, hdet => by
    rw [List.foldl_cons,
        foldl_set_getElem V es _ i (fun e' he' => hdet e' (List.mem_cons_of_mem _ he'))]
    by_cases hes : i ∈ es.map Prod.fst
    · have hmem : i ∈ (e :: es).map Prod.fst := by
        rw [List.map_cons]
        exact List.mem_cons_of_mem _ hes
      rw [if_pos hes, if_pos hmem, List.length_set]
    · rw [if_neg hes]
      by_cases hie : i = e.1
      · have hmem : i ∈ (e :: es).map Prod.fst := by
          rw [List.map_cons, hie]
          exact List.mem_cons_self _ _
        rw [if_pos hmem, hie]
        by_cases hlt : e.1 < rs.length
        · rw [if_pos hlt, hdet e (List.mem_cons_self _ _),
            List.getElem?_set_eq_of_lt _ hlt]
          rfl
        · rw [if_neg hlt]
          exact List.getElem?_eq_none (by rw [List.length_set]; omega)
      · have hmem : i ∉ (e :: es).map Prod.fst := by
          rw [List.map_cons]
          intro hmm
          rcases List.mem_cons.mp hmm with h | h
          · exact hie h
          · exact hes h
        rw [if_neg hmem]
        exact List.getElem?_set_ne (fun h => hie h.symm)

theorem batch_eq {π : Type} (recog : π → Except Unit String) (fp : π → Nat)
    (c : Cache) (pages : List π) (useCache : Bool) (order : List Nat) :
    extract_text_from_pages_batch recog fp c pages useCache order =
      if pages.isEmpty then ([], c)
      else if (if useCache then splitHits c fp pages 0 else ([], [])).2.isEmpty then
        ((if useCache then splitHits c fp pages 0 else ([], [])).1.map
          (fun h => some h.2), c)
      else
        runWorkers recog fp pages useCache order
          ((if useCache then splitHits c fp pages 0 else ([], [])).1.foldl
            (fun rs h => rs.set h.1 (some h.2)) (List.replicate pages.length none)) c :=
  rfl

/-- The central batch lemma: under caching, for any completion order that
dispatches exactly the cache-missing indices, the batch returns one
entry per page in input order — the cached value for hits, the worker's
recognition result for misses — independently of the order itself. -/
theorem batch_eq_true {π : Type} (recog : π → Except Unit String) (fp : π → Nat)
    (c : Cache) (pages : List π) (order : List Nat) :
    extract_text_from_pages_batch recog fp c pages true order =
      if pages.isEmpty then ([], c)
      else if (splitHits c fp pages 0).2.isEmpty then
        ((splitHits c fp pages 0).1.map (fun h => some h.2), c)
      else
        runWorkers recog fp pages true order
          ((splitHits c fp pages 0).1.foldl (fun rs h => rs.set h.1 (some h.2))
            (List.replicate pages.length none)) c :=
  rfl

theorem batch_spec {π : Type} (recog : π → Except Unit String) (fp : π → Nat)
    (c : Cache) (pages : List π) (order : List Nat)
    (horder : ∀ i, i ∈ order ↔ i ∈ (splitHits c fp pages 0).2) :
    (extract_text_from_pages_batch recog fp c pages true order).1 =
      pages.map (fun p => some (expectedText recog fp c p)) := by
  rw [batch_eq_true]
  by_cases hemp : pages.isEmpty
  · rw [if_pos hemp, List.isEmpty_iff.mp hemp]
    rfl
  · rw [if_neg hemp]
    by_cases hm : (splitHits c fp pages 0).2.isEmpty
    · rw [if_pos hm]
      exact splitHits_no_misses recog c fp pages 0 (List.isEmpty_iff.mp hm)
    · rw [if_neg hm]
      apply List.ext_getElem?
      intro i
      rw [List.getElem?_map]
      by_cases hlt : i < pages.length
      · obtain ⟨p, hp⟩ : ∃ p, pages.get? i = some p := by
          cases hq : pages.get? i with
          | none =>
            have := List.get?_eq_none.mp hq
            omega
          | some p => exact ⟨p, rfl⟩
        have hp' : pages[i]? = some p := by
          rw [← List.get?_eq_getElem?]
          exact hp
        rw [hp']
        cases hh : cacheHitText c (fp p) with
        | some t =>
          have hnotmiss : i ∉ (splitHits c fp pages 0).2 := by
            rw [splitHits_misses_mem]
            rintro ⟨k, p', hk, hik, hmiss⟩
            have hki : k = i := by omega
            subst hki
            rw [hp] at hk
            injection hk with hk
            subst hk
            rw [hh] at hmiss
            cases hmiss
          have hnotord : i ∉ order := fun h => hnotmiss ((horder i).mp h)
          rw [runWorkers_getElem_not_mem recog fp pages true order _ c i hnotord]
          rw [foldl_set_getElem (fun n => (pages.get? n).bind
            (fun p' => cacheHitText c (fp p')))]
          · have hinhits : (i, t) ∈ (splitHits c fp pages 0).1 := by
              rw [splitHits_hits_mem]
              exact ⟨i, p, hp, by omega, hh⟩
            have hmem : i ∈ (splitHits c fp pages 0).1.map Prod.fst :=
              List.mem_map_of_mem Prod.fst hinhits
            rw [if_pos hmem, if_pos (by rw [List.length_replicate]; exact hlt)]
            have he : expectedText recog fp c p = t := by
              unfold expectedText
              rw [hh]
            simp [hp', hh, he]
          · intro e he
            rw [splitHits_hits_mem] at he
            rcases he with ⟨k, p', hk, hik, hhit⟩
            have hk0 : e.1 = k := by omega
            rw [hk0, hk]
            exact hhit
        | none =>
          have hmiss : i ∈ (splitHits c fp pages 0).2 := by
            rw [splitHits_misses_mem]
            exact ⟨i, p, hp, by omega, hh⟩
          have hord : i ∈ order := (horder i).mpr hmiss
          rw [runWorkers_getElem_mem recog fp pages true order _ c i p
            (by rw [foldl_set_length, List.length_replicate]) hp hord]
          have he : expectedText recog fp c p = workerText recog p := by
            unfold expectedText
            rw [hh]
          simp [he]
      · rw [List.getElem?_eq_none (l := pages) (by omega)]
        refine List.getElem?_eq_none ?_
        rw [runWorkers_length, foldl_set_length, List.length_replicate]
        omega

/-- C3 (amended): With caching enabled (`use_cache = true`, the only
mode the pipeline uses), for every page sequence, cache state and
completion order dispatching exactly the cache-missing indices,
`extract_text_from_pages_batch` returns one result per input page in
input order — the cached value for hits, the worker's recognition
result for misses — independently of the workers' completion order.
(The claim fails as stated when `use_cache = false`: see the
counterexample.) -/
theorem c3_batch_order_preservation {π : Type} (recog : π → Except Unit String)
    (fp : π → Nat) (c : Cache) (pages : List π) (order : List Nat)
    (horder : ∀ i, i ∈ order ↔ i ∈ (splitHits c fp pages 0).2) :
    (extract_text_from_pages_batch recog fp c pages true order).1 =
      pages.map (fun p => some (expectedText recog fp c p)) ∧
    (extract_text_from_pages_batch recog fp c pages true order).1.length =
      pages.length := by
  refine ⟨batch_spec recog fp c pages order horder, ?_⟩
  rw [batch_spec recog fp c pages order horder, List.length_map]

/-- C3 witness: a three-page batch with one cached page, one page cached
as the empty string (treated as a miss) and one uncached page, with the
workers finishing out of order. -/
theorem c3_batch_order_preservation_witness :
    (extract_text_from_pages_batch (fun _ : Nat => Except.ok "新文本") (fun n => n)
        [(20, "缓存"), (21, "")] [20, 21, 22] true [2, 1]).1 =
      [20, 21, 22].map (fun p => some (expectedText (fun _ : Nat => Except.ok "新文本")
        (fun n => n) [(20, "缓存"), (21, "")] p)) :=
  (c3_batch_order_preservation (fun _ : Nat => Except.ok "新文本") (fun n => n)
    [(20, "缓存"), (21, "")] [20, 21, 22] [2, 1]
    (by
      have hs : (splitHits [(20, "缓存"), (21, "")] (fun n : Nat => n)
          [20, 21, 22] 0).2 = [1, 2] := by decide
      intro i
      rw [hs]
      simp only [List.mem_cons, List.not_mem_nil, or_false]
      omega)).1

/-- C3: Counterexample to the claim as stated.  With `use_cache = false`
and a non-empty page list, `remaining_indices` is never populated
(ocr_engine.py lines 206-216), the all-hit early return fires with an
empty `cached_results`, and the batch returns the empty list — not a
list of the input's length. -/
theorem c3_batch_use_cache_false_counterexample :
    (extract_text_from_pages_batch (fun _ : Nat => Except.ok "文本") (fun n => n) []
        [7] false []).1 = [] ∧
    ([] : List (Option String)).length ≠ [7].length :=
  ⟨rfl, by decide⟩

/-- C4 (amended): With caching enabled, if the first
`extract_text_from_page` call for a page returns a non-empty text, then
that text is under the page's fingerprint in the resulting cache, and a
second call for the same fingerprint performs no recognition invocation
and returns the cached value unchanged — so recognition runs at most
once across the two calls.  (When the first call's result is empty —
recognition failed or produced nothing — nothing is cached and the
second call invokes recognition again: see the counterexample.) -/
theorem c4_cache_idempotent {π : Type} (recog : π → Except Unit String)
    (fp : π → Nat) (c : Cache) (p q : π) (hfq : fp q = fp p)
    (hne : (extract_text_from_page recog fp c p true).text ≠ "") :
    cacheLookup (extract_text_from_page recog fp c p true).cache (fp p) =
      some (extract_text_from_page recog fp c p true).text ∧
    extract_text_from_page recog fp
        (extract_text_from_page recog fp c p true).cache q true =
      ⟨(extract_text_from_page recog fp c p true).text,
       (extract_text_from_page recog fp c p true).cache, false⟩ := by
  have hkey : cacheLookup (extract_text_from_page recog fp c p true).cache (fp p) =
      some (extract_text_from_page recog fp c p true).text := by
    cases hh : cacheHitText c (fp p) with
    | some t =>
      rw [etp_hit recog fp c p t hh]
      unfold cacheHitText at hh
      cases hl : cacheLookup c (fp p) with
      | none => rw [hl] at hh; cases hh
      | some w =>
        simp only [hl] at hh
        by_cases hw : w = ""
        · rw [if_pos hw] at hh; cases hh
        · rw [if_neg hw] at hh
          injection hh with hh
          subst hh
          rfl
    | none =>
      rw [etp_miss recog fp c p hh] at hne ⊢
      cases hr : recog p with
      | error e =>
        rw [runRecognition, hr] at hne
        exact absurd rfl hne
      | ok t =>
        simp only [runRecognition, hr] at hne ⊢
        by_cases ht : t = ""
        · rw [if_neg (by simp [ht])] at hne
          exact absurd ht hne
        · rw [if_pos (show True ∧ t ≠ "" from ⟨trivial, ht⟩)]
          rw [show cacheLookup (cacheInsert c (fp p) t) (fp p) = some t from by
            rw [cacheLookup_insert, if_pos rfl]]
  refine ⟨hkey, ?_⟩
  apply etp_hit
  unfold cacheHitText
  rw [hfq]
  simp only [hkey]
  rw [if_neg hne]

/-- C4 witness: a fresh page recognized as non-empty text; the second
call is the cache hit. -/
theorem c4_cache_idempotent_witness :
    extract_text_from_page (fun _ : Nat => Except.ok "文本") (fun n => n)
        (extract_text_from_page (fun _ : Nat => Except.ok "文本") (fun n => n) [] 0
          true).cache 0 true =
      ⟨(extract_text_from_page (fun _ : Nat => Except.ok "文本") (fun n => n) [] 0
          true).text,
       (extract_text_from_page (fun _ : Nat => Except.ok "文本") (fun n => n) [] 0
          true).cache, false⟩ :=
  (c4_cache_idempotent (fun _ : Nat => Except.ok "文本") (fun n => n) [] 0 0 rfl
    (by decide)).2

/-- C4: Counterexample to the claim as stated.  When recognition returns
the empty string, nothing is written to the cache (the write is guarded
by `if use_cache and text`), so recognizing the same fingerprint twice
invokes the underlying recognition routine twice — not at most once —
and there is no previously cached value for the second call to return. -/
theorem c4_cache_idempotent_counterexample :
    (extract_text_from_page (fun _ : Nat => Except.ok "") (fun n => n) [] 0
        true).invoked = true ∧
    (extract_text_from_page (fun _ : Nat => Except.ok "") (fun n => n)
        (extract_text_from_page (fun _ : Nat => Except.ok "") (fun n => n) [] 0
          true).cache 0 true).invoked = true :=
  ⟨by decide, by decide⟩

/-- C6: If the recognition call of exactly one (cache-missing) page
raises while every other page's recognition succeeds, the batch still
returns one result per page in order: the empty string — not a
propagated exception (the model is a total function) — for the failing
page, and the correct cache-or-recognition result for every other
page. -/
theorem c6_failure_isolation {π : Type} (recog : π → Except Unit String)
    (fp : π → Nat) (c : Cache) (pages : List π) (order : List Nat) (j : Nat) (pj : π)
    (horder : ∀ i, i ∈ order ↔ i ∈ (splitHits c fp pages 0).2)
    (hj : pages.get? j = some pj)
    (hfail : recog pj = Except.error ())
    (hmiss : cacheHitText c (fp pj) = none)
    (_hok : ∀ p ∈ pages, p ≠ pj → recog p ≠ Except.error ()) :
    ((extract_text_from_pages_batch recog fp c pages true order).1)[j]? =
      some (some "") ∧
    ∀ i p, i ≠ j → pages.get? i = some p →
      ((extract_text_from_pages_batch recog fp c pages true order).1)[i]? =
        some (some (expectedText recog fp c p)) := by
  have hspec := batch_spec recog fp c pages order horder
  constructor
  · have hj' : pages[j]? = some pj := by
      rw [← List.get?_eq_getElem?]
      exact hj
    rw [hspec, List.getElem?_map, hj']
    have he : expectedText recog fp c pj = "" := by
      unfold expectedText workerText
      simp only [hmiss, hfail]
    simp [he]
  · intro i p hni hp
    have hp' : pages[i]? = some p := by
      rw [← List.get?_eq_getElem?]
      exact hp
    rw [hspec, List.getElem?_map, hp']
    rfl

/-- C6 witness: three uncached pages where only page `1` raises, with an
out-of-order completion order; the failing page's slot holds `""`. -/
theorem c6_failure_isolation_witness :
    ((extract_text_from_pages_batch c6recog (fun n => n) [] [10, 1, 12] true
        [2, 0, 1]).1)[1]? = some (some "") :=
  (c6_failure_isolation c6recog (fun n => n) [] [10, 1, 12] [2, 0, 1] 1 1
    (by
      have hs : (splitHits [] (fun n : Nat => n) [10, 1, 12] 0).2 = [0, 1, 2] := by
        decide
      intro i
      rw [hs]
      simp only [List.mem_cons, List.not_mem_nil, or_false]
      omega)
    (by decide) rfl (by decide)
    (by
      intro p hp hne
      fin_cases hp
      · simp [c6recog]
      · exact absurd rfl hne
      · simp [c6recog])).1

/-- C10: Only non-empty texts are ever written to the cache by the
recognition code paths (both the single-page path and the batch worker
loop: any key whose looked-up value changes holds a non-empty string);
a cached value that is absent or fails to load (`none`) or is empty is
treated as a miss (recognition is invoked); and every cache hit used in
place of recognition is non-empty (a hit without invocation returns a
non-empty string that was in the cache, and the batch's hit probe only
yields non-empty strings). -/
theorem c10_cache_hits_nonempty {π : Type} (recog : π → Except Unit String)
    (fp : π → Nat) (c : Cache) (p : π) (u : Bool) (pages : List π)
    (order : List Nat) (results : List (Option String)) :
    (∀ k v, cacheLookup (extract_text_from_page recog fp c p u).cache k = some v →
        cacheLookup c k = some v ∨ v ≠ "") ∧
    ((extract_text_from_page recog fp c p u).invoked = false →
        (extract_text_from_page recog fp c p u).text ≠ "" ∧
        cacheLookup c (fp p) = some (extract_text_from_page recog fp c p u).text) ∧
    (cacheHitText c (fp p) = none →
        (extract_text_from_page recog fp c p true).invoked = true) ∧
    (∀ t, cacheHitText c (fp p) = some t → t ≠ "") ∧
    (∀ k v, cacheLookup (runWorkers recog fp pages u order results c).2 k = some v →
        cacheLookup c k = some v ∨ v ≠ "") ∧
    (∀ k v,
        cacheLookup (extract_text_from_pages_batch recog fp c pages u order).2 k =
          some v →
        cacheLookup c k = some v ∨ v ≠ "") := by
  refine ⟨fun k v h => etp_cache_write recog fp c p u k v h,
    fun h => ⟨(etp_no_invoke recog fp c p u h).1, (etp_no_invoke recog fp c p u h).2.1⟩,
    fun h => ?_, ?_,
    fun k v h => runWorkers_cache_write recog fp pages u order results c k v h, ?_⟩
  · rw [etp_miss recog fp c p h]
    exact runRecognition_invoked recog fp c p true
  · intro t ht
    unfold cacheHitText at ht
    cases hl : cacheLookup c (fp p) with
    | none => rw [hl] at ht; cases ht
    | some w =>
      simp only [hl] at ht
      by_cases hw : w = ""
      · rw [if_pos hw] at ht; cases ht
      · rw [if_neg hw] at ht
        injection ht with ht
        subst ht
        exact hw
  · intro k v h
    rw [batch_eq] at h
    by_cases hemp : pages.isEmpty
    · rw [if_pos hemp] at h
      exact Or.inl h
    · rw [if_neg hemp] at h
      by_cases hm : (if u then splitHits c fp pages 0 else ([], [])).2.isEmpty
      · rw [if_pos hm] at h
        exact Or.inl h
      · rw [if_neg hm] at h
        exact runWorkers_cache_write recog fp pages u order _ c k v h

/-- C10 witness: writing a freshly recognized non-empty text, the
write-monotonicity part instantiated at the written key. -/
theorem c10_cache_hits_nonempty_witness :
    cacheLookup ([] : Cache) 5 = some "字" ∨ ("字" : String) ≠ "" :=
  (c10_cache_hits_nonempty (fun _ : Nat => Except.ok "字") (fun n => n) [] 5 true
    [] [] []).1 5 "字" (by decide)

end ExamETL
